import Mathlib

/-!
# Verification of `sanityCheckShortTerm.py` (AMPA receptor Gillespie simulation)

Shallow embedding of the stochastic-simulation core of the repository:

* `calculate_hi`    — the Pascal-row combinatorial routine (source lines 40-54);
* `next_values`     — the Gillespie direct-method event scheduler (lines 23-38);
* `reactions_stoch` — the reaction-string compiler (lines 56-135);
* `gillespie_algo`  — the simulation loop (lines 141-254).

Python integers are modelled by `ℕ`/`ℤ`, exactly-representable float
quantities (rates, propensities, the uniform draws `r2`) by `ℚ`, and
logarithm-valued times by `ℝ` extended with `⊤` (`EReal`), since numpy
produces `inf` on the division `1/a0` when the total propensity `a0` is
zero.  Fallible operations (list indexing out of range, `int()` on a
non-numeric string) return `Option`, with `none` standing for a raised
Python exception.
-/

set_option maxRecDepth 4000

namespace AmparSim

/-! ## `calculate_hi` (source lines 40-54)

```
b=[0]*(n+1)
b[0]=1
for i in range(1,n+1):
    b[i]=1
    j=i-1
    while j>0:
        b[j]+=b[j-1]
        j-=1
hi = b[m]*factorial(m)
```

The list `b` of length `n+1` is modelled as a function `ℕ → ℕ` that is zero
above index `n`; the final read `b[m]` is in range exactly when `m < n + 1`,
otherwise Python raises `IndexError` (modelled by `none`).  `factorial(m)`
(scipy) returns a float that is exact for every value reached in this
repository; it is modelled by `Nat.factorial`.
-/

/-- In-place assignment `b[k] = v` on the array model. -/
def fupdate (b : ℕ → ℕ) (k v : ℕ) : ℕ → ℕ :=
  fun x => if x = k then v else b x

/-- The inner `while j>0: b[j]+=b[j-1]; j-=1` loop, entered with `j` set to
the argument. -/
def hiInner : (ℕ → ℕ) → ℕ → (ℕ → ℕ)
  | b, 0 => b
  | b, j + 1 => hiInner (fupdate b (j + 1) (b (j + 1) + b j)) j

/-- The array `b` after the outer `for i in range(1,n+1)` loop: `hiRow 0` is
the initial array `[1,0,...,0]`, and iteration `i = n+1` sets `b[n+1] = 1`
and runs the inner loop from `j = n`. -/
def hiRow : ℕ → (ℕ → ℕ)
  | 0 => fupdate (fun _ => 0) 0 1
  | n + 1 => hiInner (fupdate (hiRow n) (n + 1) 1) n

/-- `calculate_hi(n, m)` from the source: the Pascal-row entry `b[m]` times
`factorial(m)`.  The read `b[m]` raises `IndexError` when `m ≥ n + 1`. -/
def calculate_hi (n m : ℕ) : Option ℕ :=
  if m < n + 1 then some (hiRow n m * Nat.factorial m) else none

theorem fupdate_same (b : ℕ → ℕ) (k v : ℕ) : fupdate b k v k = v := by
  simp [fupdate]

theorem fupdate_ne (b : ℕ → ℕ) {k x : ℕ} (v : ℕ) (h : x ≠ k) :
    fupdate b k v x = b x := by
  simp [fupdate, h]

/-- The inner loop performs the simultaneous update
`b[x] ← b[x] + b[x-1]` for `1 ≤ x ≤ j` (the downward traversal reads each
`b[x-1]` before it is overwritten). -/
theorem hiInner_apply (j : ℕ) :
    ∀ (b : ℕ → ℕ) (x : ℕ),
      hiInner b j x = if 1 ≤ x ∧ x ≤ j then b x + b (x - 1) else b x := by
  induction j with
  | zero =>
    intro b x
    have h : ¬(1 ≤ x ∧ x ≤ 0) := by omega
    rw [hiInner, if_neg h]
  | succ j ih =>
    intro b x
    rw [hiInner, ih]
    by_cases hA : 1 ≤ x ∧ x ≤ j
    · have hx1 : x ≠ j + 1 := by omega
      have hx2 : x - 1 ≠ j + 1 := by omega
      rw [if_pos hA, fupdate_ne _ _ hx1, fupdate_ne _ _ hx2,
        if_pos ⟨hA.1, Nat.le_succ_of_le hA.2⟩]
    · by_cases hB : x = j + 1
      · subst hB
        have hc : ¬(1 ≤ j + 1 ∧ j + 1 ≤ j) := by omega
        rw [if_neg hc, fupdate_same, if_pos ⟨by omega, le_rfl⟩, Nat.succ_sub_one]
      · have hC : ¬(1 ≤ x ∧ x ≤ j + 1) := by omega
        have hc : ¬(1 ≤ x ∧ x ≤ j) := by omega
        rw [if_neg hc, fupdate_ne _ _ hB, if_neg hC]

/-- After outer iteration `n`, the array holds row `n` of Pascal's
triangle: `b[x] = C(n, x)` (zero above `n`). -/
theorem hiRow_eq_choose : ∀ n x : ℕ, hiRow n x = Nat.choose n x := by
  intro n
  induction n with
  | zero =>
    intro x
    cases x with
    | zero => simp [hiRow, fupdate]
    | succ k => simp [hiRow, fupdate]
  | succ n ih =>
    intro x
    rw [hiRow, hiInner_apply]
    by_cases hA : 1 ≤ x ∧ x ≤ n
    · have hx1 : x ≠ n + 1 := by omega
      have hx2 : x - 1 ≠ n + 1 := by omega
      rw [if_pos hA, fupdate_ne _ _ hx1, fupdate_ne _ _ hx2, ih, ih]
      obtain ⟨k, rfl⟩ : ∃ k, x = k + 1 := ⟨x - 1, by omega⟩
      rw [Nat.succ_sub_one, Nat.choose_succ_succ, Nat.add_comm]
    · by_cases hB : x = n + 1
      · subst hB
        rw [if_neg hA, fupdate_same, Nat.choose_self]
      · rw [if_neg hA, fupdate_ne _ _ hB, ih]
        rcases Nat.lt_or_ge x 1 with hx | hx
        · interval_cases x
          simp
        · have hgt : n + 1 < x := by omega
          rw [Nat.choose_eq_zero_of_lt (by omega), Nat.choose_eq_zero_of_lt hgt]

/-- On in-range arguments `calculate_hi` returns `C(n,m) · m!` exactly. -/
theorem calculate_hi_eq {n m : ℕ} (h : m ≤ n) :
    calculate_hi n m = some (Nat.choose n m * Nat.factorial m) := by
  rw [calculate_hi, if_pos (by omega), hiRow_eq_choose]

/-- When `m > n` the read `b[m]` is out of range: `calculate_hi` raises. -/
theorem calculate_hi_oob {n m : ℕ} (h : n < m) : calculate_hi n m = none := by
  rw [calculate_hi, if_neg (by omega)]

/-! ## `next_values` (source lines 23-38)

```
new_time_difference = (1/a0)*np.log(1/r1)
mu = 0
N = r2*a0 - a[mu]
while N > 0:
    mu += 1
    N = N - a[mu]
return(new_time_difference, mu)
```

The propensity values are modelled by `ℚ`, the log-valued waiting time by
`ℝ`.  Indexing `a[mu]` past the end of `a` raises `IndexError` (`none`).
The function is pure: it reads its arguments and mutates nothing.
-/

/-- The waiting time `Δt = (1/a0) · ln(1/r1)`. -/
noncomputable def new_time_difference (a0 r1 : ℝ) : ℝ :=
  (1 / a0) * Real.log (1 / r1)

/-- The `while N > 0` scan: `rest` is the still-unread tail of `a`,
`N` the running value `r2*a0 - (a[0] + ... + a[mu])`, `mu` the candidate
index. -/
def muLoop : List ℚ → ℚ → ℕ → Option ℕ
  | [], N, mu => if N > 0 then none else some mu
  | x :: xs, N, mu => if N > 0 then muLoop xs (N - x) (mu + 1) else some mu

/-- The reaction-selection part of `next_values`: reads `a[0]` (raising on
an empty list) and runs the scan over the tail. -/
def next_mu (a0 : ℚ) (a : List ℚ) (r2 : ℚ) : Option ℕ :=
  match a with
  | [] => none
  | h :: t => muLoop t (r2 * a0 - h) 0

/-- `next_values(a0, a, r1, r2)`: the pair of waiting time and selected
reaction index. -/
noncomputable def next_values (a0 : ℚ) (a : List ℚ) (r1 : ℝ) (r2 : ℚ) :
    Option (ℝ × ℕ) :=
  (next_mu a0 a r2).map (fun mu => (new_time_difference (a0 : ℝ) r1, mu))

/-- The scan terminates with `some` whenever the remaining propensity mass
can exhaust `N`, and the returned offset is the least number of further
entries whose sum reaches `N`. -/
theorem muLoop_total : ∀ (rest : List ℚ) (N : ℚ) (mu : ℕ), N ≤ rest.sum →
    ∃ k, muLoop rest N mu = some (mu + k) ∧ k ≤ rest.length ∧
      N ≤ (rest.take k).sum ∧ ∀ j < k, (rest.take j).sum < N := by
  intro rest
  induction rest with
  | nil =>
    intro N mu h
    refine ⟨0, ?_, by simp, by simpa using h, by omega⟩
    rw [muLoop, if_neg (by simpa using h.not_lt)]
    simp
  | cons x xs ih =>
    intro N mu h
    by_cases hN : N > 0
    · have hx : N - x ≤ xs.sum := by
        have := h; rw [List.sum_cons] at this; linarith
      obtain ⟨k, hk, hklen, hge, hlt⟩ := ih (N - x) (mu + 1) hx
      refine ⟨k + 1, ?_, by simpa using Nat.succ_le_succ hklen, ?_, ?_⟩
      · rw [muLoop, if_pos hN, hk]
        congr 1
        omega
      · rw [List.take_succ_cons, List.sum_cons]
        linarith
      · intro j hj
        cases j with
        | zero => simpa using hN
        | succ j =>
          rw [List.take_succ_cons, List.sum_cons]
          have := hlt j (by omega)
          linarith
    · refine ⟨0, ?_, by simp, ?_, by omega⟩
      · rw [muLoop, if_neg hN]
        simp
      · simpa using le_of_not_lt hN

/-- Soundness of the scan: any returned index is the least offset whose
prefix sum reaches `N`. -/
theorem muLoop_sound : ∀ (rest : List ℚ) (N : ℚ) (mu0 mu : ℕ),
    muLoop rest N mu0 = some mu →
    mu0 ≤ mu ∧ mu - mu0 ≤ rest.length ∧ N ≤ (rest.take (mu - mu0)).sum ∧
      ∀ j < mu - mu0, (rest.take j).sum < N := by
  intro rest
  induction rest with
  | nil =>
    intro N mu0 mu h
    rw [muLoop] at h
    by_cases hN : N > 0
    · rw [if_pos hN] at h; exact absurd h (by simp)
    · rw [if_neg hN] at h
      obtain rfl : mu0 = mu := by simpa using h
      refine ⟨le_rfl, by simp, ?_, by omega⟩
      simpa using le_of_not_lt hN
  | cons x xs ih =>
    intro N mu0 mu h
    rw [muLoop] at h
    by_cases hN : N > 0
    · rw [if_pos hN] at h
      obtain ⟨h0, h1, h2, h3⟩ := ih (N - x) (mu0 + 1) mu h
      have hk : mu - mu0 = (mu - (mu0 + 1)) + 1 := by omega
      refine ⟨by omega, by simp; omega, ?_, ?_⟩
      · rw [hk, List.take_succ_cons, List.sum_cons]
        linarith
      · intro j hj
        cases j with
        | zero => simpa using hN
        | succ j =>
          rw [List.take_succ_cons, List.sum_cons]
          have := h3 j (by omega)
          linarith
    · rw [if_neg hN] at h
      obtain rfl : mu0 = mu := by simpa using h
      refine ⟨le_rfl, by simp, ?_, by omega⟩
      simpa using le_of_not_lt hN

/-! ## Propensity calculation (source lines 191-211)

```
for i in range(number_reactions):
    hi = 1
    for j in range(number_species):
        if sub_stoch[i,j] == 0:
            continue
        else:
            if current_species[j] <= 0:
                hi = 0
                continue
            else:
                hi *= calculate_hi(int(current_species[j]), np.absolute(sub_stoch[i,j]))
    a[i] = hi*rates[i]
a0 = sum(a)
```

One reaction's inner loop walks the pairs `(sub_stoch[i,j], current_species[j])`;
a raised `IndexError` inside `calculate_hi` propagates as `none`.  Note that
after `hi = 0` the loop keeps going (`continue`), so a later species with
`0 < x < k` still raises.
-/

/-- The inner species loop for one reaction, over the zipped list of
(substrate coefficient, current molecule count) pairs, with accumulator
`hi`. -/
def hiLoop : List (ℤ × ℤ) → ℕ → Option ℕ
  | [], hi => some hi
  | (s, xj) :: rest, hi =>
    if s = 0 then hiLoop rest hi
    else if xj ≤ 0 then hiLoop rest 0
    else
      match calculate_hi xj.toNat s.natAbs with
      | some v => hiLoop rest (hi * v)
      | none => none

/-- `a[i] = hi * rates[i]` for one reaction with substrate row `row`,
state `x` and rate `c`. -/
def reaction_propensity (row x : List ℤ) (c : ℚ) : Option ℚ :=
  (hiLoop (row.zip x) 1).map (fun h => (h : ℚ) * c)

/-- The outer reaction loop, over the zipped list of (substrate row, rate)
pairs. -/
def propList : List (List ℤ × ℚ) → List ℤ → Option (List ℚ)
  | [], _ => some []
  | (row, c) :: rest, x =>
    match reaction_propensity row x c, propList rest x with
    | some v, some vs => some (v :: vs)
    | _, _ => none

/-- The full propensity vector `a` of one loop iteration. -/
def propensities (sub_stoch : List (List ℤ)) (rates : List ℚ) (x : List ℤ) :
    Option (List ℚ) :=
  propList (sub_stoch.zip rates) x

/-- The "number of ordered selections" factor the code accumulates for a
feasible reaction: `∏ C(x[s], k_s) · k_s!` over the involved species. -/
def hProd : List (ℤ × ℤ) → ℕ
  | [] => 1
  | p :: rest =>
    (if p.1 = 0 then 1
     else Nat.choose p.2.toNat p.1.natAbs * Nat.factorial p.1.natAbs) * hProd rest

theorem calculate_hi_some_le {n m w : ℕ} (h : calculate_hi n m = some w) :
    m ≤ n := by
  by_contra hc
  rw [calculate_hi_oob (by omega)] at h
  exact Option.noConfusion h

/-- A zero accumulator is absorbing: if the loop returns, it returns 0. -/
theorem hiLoop_zero_acc : ∀ (l : List (ℤ × ℤ)) (v : ℕ),
    hiLoop l 0 = some v → v = 0 := by
  intro l
  induction l with
  | nil => intro v h; simpa [hiLoop] using h.symm
  | cons p rest ih =>
    intro v h
    obtain ⟨s, xj⟩ := p
    rw [hiLoop] at h
    by_cases hs : s = 0
    · rw [if_pos hs] at h; exact ih v h
    · rw [if_neg hs] at h
      by_cases hx : xj ≤ 0
      · rw [if_pos hx] at h; exact ih v h
      · rw [if_neg hx] at h
        cases hcal : calculate_hi xj.toNat s.natAbs with
        | none => rw [hcal] at h; exact Option.noConfusion h
        | some w =>
          rw [hcal] at h
          have h2 : hiLoop rest (0 * w) = some v := h
          rw [Nat.zero_mul] at h2
          exact ih v h2

/-- The inner loop returns a value whenever every involved species with a
positive count has enough molecules (so `calculate_hi` never indexes out of
range). -/
theorem hiLoop_total : ∀ (l : List (ℤ × ℤ)) (hi : ℕ),
    (∀ p ∈ l, p.1 ≠ 0 → 0 < p.2 → (p.1.natAbs : ℤ) ≤ p.2) →
    ∃ v, hiLoop l hi = some v := by
  intro l
  induction l with
  | nil => intro hi _; exact ⟨hi, rfl⟩
  | cons p rest ih =>
    intro hi hfeas
    obtain ⟨s, xj⟩ := p
    have htail : ∀ p ∈ rest, p.1 ≠ 0 → 0 < p.2 → (p.1.natAbs : ℤ) ≤ p.2 :=
      fun p hp => hfeas p (List.mem_cons_of_mem _ hp)
    rw [hiLoop]
    by_cases hs : s = 0
    · rw [if_pos hs]; exact ih hi htail
    · rw [if_neg hs]
      by_cases hx : xj ≤ 0
      · rw [if_pos hx]; exact ih 0 htail
      · rw [if_neg hx]
        have hk : s.natAbs ≤ xj.toNat := by
          have := hfeas (s, xj) (List.mem_cons_self _ _) hs (by omega)
          omega
        rw [calculate_hi_eq hk]
        exact ih _ htail

/-- If some involved species has count `≤ 0` (and no species is partially
available, which would raise), the reaction's `hi` is exactly 0. -/
theorem hiLoop_insufficient : ∀ (l : List (ℤ × ℤ)) (hi : ℕ),
    (∀ p ∈ l, p.1 ≠ 0 → 0 < p.2 → (p.1.natAbs : ℤ) ≤ p.2) →
    (∃ p ∈ l, p.1 ≠ 0 ∧ p.2 ≤ 0) →
    hiLoop l hi = some 0 := by
  intro l
  induction l with
  | nil => intro hi _ hbad; exact absurd hbad (by simp)
  | cons p rest ih =>
    intro hi hfeas hbad
    obtain ⟨s, xj⟩ := p
    have htail : ∀ p ∈ rest, p.1 ≠ 0 → 0 < p.2 → (p.1.natAbs : ℤ) ≤ p.2 :=
      fun p hp => hfeas p (List.mem_cons_of_mem _ hp)
    rw [hiLoop]
    by_cases hs : s = 0
    · rw [if_pos hs]
      refine ih hi htail ?_
      obtain ⟨q, hq, hq1, hq2⟩ := hbad
      rcases List.mem_cons.mp hq with rfl | hq
      · exact absurd hs hq1
      · exact ⟨q, hq, hq1, hq2⟩
    · rw [if_neg hs]
      by_cases hx : xj ≤ 0
      · rw [if_pos hx]
        obtain ⟨v, hv⟩ := hiLoop_total rest 0 htail
        rw [hv, hiLoop_zero_acc rest v hv]
      · rw [if_neg hx]
        have hk : s.natAbs ≤ xj.toNat := by
          have := hfeas (s, xj) (List.mem_cons_self _ _) hs (by omega)
          omega
        rw [calculate_hi_eq hk]
        refine ih _ htail ?_
        obtain ⟨q, hq, hq1, hq2⟩ := hbad
        rcases List.mem_cons.mp hq with rfl | hq
        · exact absurd hq2 (by simpa using hx)
        · exact ⟨q, hq, hq1, hq2⟩

/-- On a fully feasible reaction the loop computes
`hi · ∏ C(x[s], k_s) · k_s!`. -/
theorem hiLoop_feasible : ∀ (l : List (ℤ × ℤ)) (hi : ℕ),
    (∀ p ∈ l, p.1 ≠ 0 → (p.1.natAbs : ℤ) ≤ p.2) →
    hiLoop l hi = some (hi * hProd l) := by
  intro l
  induction l with
  | nil => intro hi _; simp [hiLoop, hProd]
  | cons p rest ih =>
    intro hi hfeas
    obtain ⟨s, xj⟩ := p
    have htail : ∀ p ∈ rest, p.1 ≠ 0 → (p.1.natAbs : ℤ) ≤ p.2 :=
      fun p hp => hfeas p (List.mem_cons_of_mem _ hp)
    rw [hiLoop, hProd]
    by_cases hs : s = 0
    · rw [if_pos hs, ih hi htail]
      simp [hs]
    · have hsle : (s.natAbs : ℤ) ≤ xj := hfeas (s, xj) (List.mem_cons_self _ _) hs
      have hxpos : ¬ xj ≤ 0 := by
        have : (1 : ℤ) ≤ s.natAbs := by
          have := Int.natAbs_pos.mpr hs
          omega
        omega
      rw [if_neg hs, if_neg hxpos]
      have hk : s.natAbs ≤ xj.toNat := by omega
      rw [calculate_hi_eq hk]
      show hiLoop rest (hi * (Nat.choose xj.toNat s.natAbs * Nat.factorial s.natAbs)) = _
      rw [ih _ htail, if_neg hs]
      congr 1
      ring

/-- Soundness: a strictly positive `hi` implies every involved species was
fully available. -/
theorem hiLoop_pos_feasible : ∀ (l : List (ℤ × ℤ)) (hi v : ℕ),
    hiLoop l hi = some v → 0 < v →
    ∀ p ∈ l, p.1 ≠ 0 → (p.1.natAbs : ℤ) ≤ p.2 := by
  intro l
  induction l with
  | nil => intro hi v _ _ p hp; exact absurd hp (by simp)
  | cons q rest ih =>
    intro hi v h hv p hp
    obtain ⟨s, xj⟩ := q
    rw [hiLoop] at h
    by_cases hs : s = 0
    · rw [if_pos hs] at h
      intro hp1
      rcases List.mem_cons.mp hp with rfl | hp
      · exact absurd hs hp1
      · exact ih hi v h hv p hp hp1
    · rw [if_neg hs] at h
      by_cases hx : xj ≤ 0
      · rw [if_pos hx] at h
        exact absurd (hiLoop_zero_acc rest v h) (by omega)
      · rw [if_neg hx] at h
        cases hcal : calculate_hi xj.toNat s.natAbs with
        | none => rw [hcal] at h; exact Option.noConfusion h
        | some w =>
          rw [hcal] at h
          intro hp1
          rcases List.mem_cons.mp hp with rfl | hp
          · have := calculate_hi_some_le hcal
            omega
          · exact ih _ v h hv p hp hp1

theorem reaction_propensity_nonneg {row x : List ℤ} {c v : ℚ}
    (h : reaction_propensity row x c = some v) (hc : 0 ≤ c) : 0 ≤ v := by
  rw [reaction_propensity] at h
  cases hw : hiLoop (row.zip x) 1 with
  | none => rw [hw] at h; exact Option.noConfusion h
  | some w =>
    rw [hw] at h
    obtain rfl : ((w : ℚ) * c) = v := by simpa using h
    exact mul_nonneg (by exact_mod_cast Nat.zero_le w) hc

theorem propList_length : ∀ (l : List (List ℤ × ℚ)) (x : List ℤ) (a : List ℚ),
    propList l x = some a → a.length = l.length := by
  intro l
  induction l with
  | nil => intro x a h; simpa [propList] using (congrArg (Option.map List.length) h.symm)
  | cons p rest ih =>
    intro x a h
    obtain ⟨row, c⟩ := p
    rw [propList] at h
    cases h1 : reaction_propensity row x c with
    | none => rw [h1] at h; exact Option.noConfusion h
    | some v =>
      cases h2 : propList rest x with
      | none => rw [h1, h2] at h; exact Option.noConfusion h
      | some vs =>
        rw [h1, h2] at h
        obtain rfl : v :: vs = a := by simpa using h
        simpa using ih x vs h2

theorem propList_get : ∀ (l : List (List ℤ × ℚ)) (x : List ℤ) (a : List ℚ),
    propList l x = some a → ∀ (i : ℕ) (h1 : i < l.length) (h2 : i < a.length),
      reaction_propensity (l.get ⟨i, h1⟩).1 x (l.get ⟨i, h1⟩).2 =
        some (a.get ⟨i, h2⟩) := by
  intro l
  induction l with
  | nil => intro x a _ i h1; exact absurd h1 (by simp)
  | cons p rest ih =>
    intro x a h i h1 h2
    obtain ⟨row, c⟩ := p
    rw [propList] at h
    cases hr : reaction_propensity row x c with
    | none => rw [hr] at h; exact Option.noConfusion h
    | some v =>
      cases hrest : propList rest x with
      | none => rw [hr, hrest] at h; exact Option.noConfusion h
      | some vs =>
        rw [hr, hrest] at h
        obtain rfl : v :: vs = a := by simpa using h
        cases i with
        | zero => simpa using hr
        | succ i =>
          exact ih x vs hrest i (by simpa using h1) (by simpa using h2)

theorem propList_nonneg : ∀ (l : List (List ℤ × ℚ)) (x : List ℤ) (a : List ℚ),
    (∀ p ∈ l, 0 ≤ p.2) → propList l x = some a → ∀ v ∈ a, 0 ≤ v := by
  intro l
  induction l with
  | nil =>
    intro x a _ h v hv
    rw [propList] at h
    obtain rfl : ([] : List ℚ) = a := by simpa using h
    exact absurd hv (by simp)
  | cons p rest ih =>
    intro x a hc h v hv
    obtain ⟨row, c⟩ := p
    rw [propList] at h
    cases hr : reaction_propensity row x c with
    | none => rw [hr] at h; exact Option.noConfusion h
    | some w =>
      cases hrest : propList rest x with
      | none => rw [hr, hrest] at h; exact Option.noConfusion h
      | some vs =>
        rw [hr, hrest] at h
        obtain rfl : w :: vs = a := by simpa using h
        rcases List.mem_cons.mp hv with rfl | hv
        · exact reaction_propensity_nonneg hr (hc (row, c) (List.mem_cons_self _ _))
        · exact ih x vs (fun p hp => hc p (List.mem_cons_of_mem _ hp)) hrest v hv

/-! ## `reactions_stoch` (source lines 56-135)

The reaction-string compiler.  Python strings are modelled as `List Char`,
and `str.split(sep)` on a nonempty separator by the structurally recursive
`strSplit` below (left-to-right scan, at each position either consuming an
occurrence of the separator and emitting the accumulated piece, or moving
one character into the accumulator).  A term `j` is processed as

```
j = j.split("X")
if j[0].isdigit(): number_reaction.append(int(j[0]))
else:              number_reaction.append(1)
if len(j) == 2:
    number_reaction.append(int(j[1]))
    ...
if len(number_reaction) == 2:
    sub_one_reaction.append(number_reaction)
```

so a term that does not split at `"X"` into exactly two pieces is silently
dropped, a term whose piece after `"X"` is non-numeric raises `ValueError`
(modelled by `none`), and a reaction side all of whose terms were dropped
is omitted from the per-reaction list that later fills the matrix rows.
Python's `int()` on the digit-checked piece always succeeds on the ASCII
strings of the grammar.
-/

/-- Auxiliary scan for `strSplit`, with fuel bounding the number of steps
(one character or one separator occurrence is consumed per step, so
`s.length` fuel always suffices). -/
def splitOnAuxCL (sep : List Char) : ℕ → List Char → List Char → List (List Char)
  | _, [], acc => [acc.reverse]
  | 0, _ :: _, acc => [acc.reverse]
  | fuel + 1, c :: cs, acc =>
    if sep.isPrefixOf (c :: cs) then
      acc.reverse :: splitOnAuxCL sep fuel ((c :: cs).drop sep.length) []
    else splitOnAuxCL sep fuel cs (c :: acc)

/-- Python's `s.split(sep)` for a nonempty separator. -/
def strSplit (s sep : List Char) : List (List Char) :=
  splitOnAuxCL sep s.length s []

/-- Python's `str.isdigit` on the ASCII strings of the reaction grammar. -/
def pyIsDigit (s : List Char) : Bool :=
  !s.isEmpty && s.all Char.isDigit

/-- Python's `int()` on the strings of the grammar: defined exactly on
nonempty decimal-digit strings, `ValueError` (`none`) otherwise. -/
def pyInt (s : List Char) : Option ℕ :=
  if pyIsDigit s then some (s.foldl (fun a c => a * 10 + (c.toNat - 48)) 0)
  else none

/-- One term: `some none` means the term was silently dropped
(`len(j) != 2`), `none` means `int(j[1])` raised `ValueError`. -/
def parse_term (t : List Char) : Option (Option (ℤ × ℕ)) :=
  let j := strSplit t ['X']
  let coeff : ℤ :=
    match j.head? with
    | some h => if pyIsDigit h then (((pyInt h).getD 0 : ℕ) : ℤ) else 1
    | none => 1
  if j.length = 2 then
    match (j.get? 1).bind pyInt with
    | some k => some (some (coeff, k))
    | none => none
  else some none

/-- Fold one side's `+`-separated terms, keeping the parsed
`[coefficient, species]` pairs and dropping malformed terms. -/
def parse_terms : List (List Char) → Option (List (ℤ × ℕ))
  | [] => some []
  | t :: ts =>
    match parse_term t with
    | none => none
    | some none => parse_terms ts
    | some (some p) => (parse_terms ts).map (p :: ·)

/-- One reaction side. -/
def parse_side (side : List Char) : Option (List (ℤ × ℕ)) :=
  parse_terms (strSplit side ['+'])

/-- Split each reaction at `"->"`; a missing arrow makes `s_p[1]` raise
`IndexError` (`none`); pieces beyond the second are ignored. -/
def split_arrows : List (List Char) → Option (List (List Char × List Char))
  | [] => some []
  | s :: ss =>
    match strSplit s ['-', '>'] with
    | a :: b :: _ => (split_arrows ss).map ((a, b) :: ·)
    | _ => none

/-- Parse a list of sides, keeping only those with at least one surviving
term (`if len(sub_one_reaction) >= 1`). -/
def collect_sides : List (List Char) → Option (List (List (ℤ × ℕ)))
  | [] => some []
  | s :: ss =>
    match parse_side s with
    | none => none
    | some l =>
      (collect_sides ss).map (fun rest => if l.isEmpty then rest else l :: rest)

/-- `total_number_species`: the largest species index seen in any kept
pair. -/
def max_species (ls : List (List (ℤ × ℕ))) : ℕ :=
  ls.foldr (fun l acc => max (l.foldr (fun p a => max p.2 a) 0) acc) 0

/-- Assignment `row[i] = v` with Python's negative-index wrap-around;
out-of-range raises `IndexError`. -/
def pySetList (l : List ℤ) (i : ℤ) (v : ℤ) : Option (List ℤ) :=
  if 0 ≤ i ∧ i < (l.length : ℤ) then some (l.set i.toNat v)
  else if -(l.length : ℤ) ≤ i ∧ i < 0 then some (l.set (l.length - (-i).toNat) v)
  else none

/-- Fill one matrix row: `row[species - 1] = f coeff` for each kept pair
(`f` is negation for the substrate matrix, identity for products). -/
def fill_one (f : ℤ → ℤ) : List ℤ → List (ℤ × ℕ) → Option (List ℤ)
  | row, [] => some row
  | row, (c, k) :: rest =>
    match pySetList row ((k : ℤ) - 1) (f c) with
    | none => none
    | some row2 => fill_one f row2 rest

/-- Fill the matrix: the `r`-th entry of the (filtered!) per-reaction list
is written into row `r`; remaining rows stay zero. -/
def fill_rows (f : ℤ → ℤ) : List (List (ℤ × ℕ)) → ℕ → ℕ → Option (List (List ℤ))
  | [], nrows, cols => some (List.replicate nrows (List.replicate cols 0))
  | l :: ls, nrows, cols =>
    match nrows with
    | 0 => none
    | nr + 1 =>
      match fill_one f (List.replicate cols 0) l with
      | none => none
      | some row => (fill_rows f ls nr cols).map (row :: ·)

/-- `reactions_stoch(reactions)`: the pair
`(sub_stoch, prod_stoch)` of stoichiometry matrices. -/
def reactions_stoch (reactions : List Char) : Option (List (List ℤ) × List (List ℤ)) :=
  let one_reaction := strSplit reactions [',']
  match split_arrows one_reaction with
  | none => none
  | some pairs =>
    match collect_sides (pairs.map Prod.fst) with
    | none => none
    | some sub_lists =>
      match collect_sides (pairs.map Prod.snd) with
      | none => none
      | some prod_lists =>
        let total := max (max_species sub_lists) (max_species prod_lists)
        match fill_rows (fun c => -c) sub_lists one_reaction.length total with
        | none => none
        | some sub_stoch =>
          (fill_rows id prod_lists one_reaction.length total).map
            (fun prod_stoch => (sub_stoch, prod_stoch))

/-- A term that does not split at `"X"` into exactly two pieces is silently
dropped, never an error. -/
theorem parse_term_dropped {t : List Char} (h : (strSplit t ['X']).length ≠ 2) :
    parse_term t = some none := by
  rw [parse_term]
  simp only [if_neg h]

/-- A term with exactly one `"X"` whose second piece is not a digit string
raises a generic `ValueError`. -/
theorem parse_term_valueError {t : List Char} {s1 s2 : List Char}
    (h : strSplit t ['X'] = [s1, s2]) (h2 : pyInt s2 = none) :
    parse_term t = none := by
  rw [parse_term, h]
  simp [h2]

/-! ## `gillespie_algo` (source lines 141-254)

The simulation loop.  `current_species = init` binds the caller's array
(numpy `+=` then mutates it in place), so the state vector is threaded
explicitly and handed back to the caller as part of the result — its final
value is what the caller's `init` array holds after the call returns.

Times live in `EReal`: when `a0 == 0` numpy evaluates `1/a0` to `inf`
(with a warning, not an exception) and, for a draw `r1 ∈ (0,1)`,
`inf * log(1/r1) = inf`; the loop condition `current_time < tmax` is then
false and the loop exits.  The preallocated numpy stores are modelled as
grow-by-append lists holding exactly the written rows `0..n_counter`; the
final truncation `store[:n_counter]` is `List.take n_counter`.  The
statistics accumulators (`store_time_difference`,
`store_filling_fraction_av`, the coefficient of variation) do not feed back
into the loop state and are not modelled.
-/

/-- The mutable loop state of `gillespie_algo`. -/
structure GState where
  current_time : EReal
  current_species : List ℤ
  n_counter : ℕ
  store_time : List EReal
  store_number_molecules : List (List ℤ)

/-- The run parameters of `gillespie_algo` (rates, the two stoichiometry
matrices, the horizon `tmax`, the step bound `n_max`, and the two
pre-drawn uniform streams). -/
structure GParams where
  rates : List ℚ
  sub_stoch : List (List ℤ)
  prod_stoch : List (List ℤ)
  tmax : ℝ
  n_max : ℕ
  r1 : ℕ → ℝ
  r2 : ℕ → ℚ

/-- `stoch = sub_stoch + prod_stoch` (elementwise, line 167). -/
def GParams.stoch (P : GParams) : List (List ℤ) :=
  List.zipWith (List.zipWith (· + ·)) P.sub_stoch P.prod_stoch

theorem stoch_def (P : GParams) :
    P.stoch = List.zipWith (List.zipWith (· + ·)) P.sub_stoch P.prod_stoch :=
  rfl

/-- numpy's value of `(1/a0)*np.log(1/r1)` for a draw `r1 ∈ (0,1)`:
when `a0 = 0` the division produces `inf` and the product with the
(positive) `log(1/r1)` is again `inf`; otherwise the finite real value. -/
noncomputable def npDt (a0 : ℚ) (r1 : ℝ) : EReal :=
  if a0 = 0 then ⊤ else ((new_time_difference (a0 : ℝ) r1 : ℝ) : EReal)

/-- One iteration of the `while` body (steps 1-3 of the source): recompute
the propensities, call `next_values`, apply the chosen reaction's combined
stoichiometry in place, and append the new time and state snapshots. -/
noncomputable def gstep (P : GParams) (st : GState) : Option GState :=
  match propensities P.sub_stoch P.rates st.current_species with
  | none => none
  | some a =>
    let a0 := a.sum
    match next_mu a0 a (P.r2 st.n_counter) with
    | none => none
    | some mu =>
      let dt := npDt a0 (P.r1 st.n_counter)
      match P.stoch.get? mu with
      | none => none
      | some row =>
        let newx := List.zipWith (· + ·) st.current_species row
        some ⟨st.current_time + dt, newx, st.n_counter + 1,
          st.store_time ++ [st.current_time + dt],
          st.store_number_molecules ++ [newx]⟩

/-- The `while (current_time < tmax) and (n_counter < n_max-1)` loop,
by fuel recursion; every iteration increments `n_counter`, so `n_max` fuel
is never exhausted before the condition fails. -/
noncomputable def grun (P : GParams) : ℕ → GState → Option GState
  | 0, st => some st
  | fuel + 1, st =>
    if st.current_time < (P.tmax : EReal) ∧ st.n_counter < P.n_max - 1 then
      match gstep P st with
      | none => none
      | some st2 => grun P fuel st2
    else some st

/-- Step 0 of the source: time 0, the caller's `init` array as state, and
the row-0 snapshots. -/
def init_gstate (init : List ℤ) : GState :=
  ⟨0, init, 0, [0], [init]⟩

/-- `gillespie_algo`: run the loop and truncate the stores to
`[:n_counter]`.  The third component is the final content of the threaded
state vector, i.e. what the caller's `init` array holds after the call. -/
noncomputable def gillespie_algo (P : GParams) (init : List ℤ) :
    Option (List EReal × List (List ℤ) × List ℤ) :=
  match grun P P.n_max (init_gstate init) with
  | none => none
  | some final =>
    some (final.store_time.take final.n_counter,
      final.store_number_molecules.take final.n_counter,
      final.current_species)

/-! ### Loop invariants -/

/-- Structural invariant of the loop state: the stores hold exactly rows
`0..n_counter`, and the last stored snapshot is the current state vector. -/
def StructInv (st : GState) : Prop :=
  st.store_number_molecules.length = st.n_counter + 1 ∧
  st.store_time.length = st.n_counter + 1 ∧
  st.store_number_molecules.getLast? = some st.current_species

/-- Validity of the run inputs: non-negative rates, non-positive substrate
rows, non-negative product rows, one rate per reaction, and `r2` draws in
the open unit interval. -/
def ValidParams (P : GParams) : Prop :=
  (∀ c ∈ P.rates, 0 ≤ c) ∧
  (∀ row ∈ P.sub_stoch, ∀ v ∈ row, v ≤ 0) ∧
  (∀ row ∈ P.prod_stoch, ∀ v ∈ row, 0 ≤ v) ∧
  P.rates.length = P.sub_stoch.length ∧
  (∀ i, 0 < P.r2 i ∧ P.r2 i < 1)

/-- Non-negativity invariant: every stored snapshot other than (possibly)
the last is non-negative, and the last one is non-negative unless the time
has already been driven to `inf` (which stops the loop); the time never
reaches `-inf`. -/
def NonnegInv (st : GState) : Prop :=
  (∀ row ∈ st.store_number_molecules.dropLast, ∀ v ∈ row, 0 ≤ v) ∧
  (st.current_time = ⊤ ∨ ∀ v ∈ st.current_species, 0 ≤ v) ∧
  st.current_time ≠ ⊥

/-- Elimination form of one loop-body step. -/
theorem gstep_some {P : GParams} {st st2 : GState} (h : gstep P st = some st2) :
    ∃ a mu row,
      propensities P.sub_stoch P.rates st.current_species = some a ∧
      next_mu a.sum a (P.r2 st.n_counter) = some mu ∧
      P.stoch.get? mu = some row ∧
      st2 = ⟨st.current_time + npDt a.sum (P.r1 st.n_counter),
        List.zipWith (· + ·) st.current_species row, st.n_counter + 1,
        st.store_time ++ [st.current_time + npDt a.sum (P.r1 st.n_counter)],
        st.store_number_molecules ++
          [List.zipWith (· + ·) st.current_species row]⟩ := by
  unfold gstep at h
  cases hp : propensities P.sub_stoch P.rates st.current_species with
  | none => rw [hp] at h; exact Option.noConfusion h
  | some a =>
    simp only [hp] at h
    cases hm : next_mu a.sum a (P.r2 st.n_counter) with
    | none => simp only [hm] at h; exact Option.noConfusion h
    | some mu =>
      simp only [hm] at h
      cases hr : P.stoch.get? mu with
      | none => simp only [hr] at h; exact Option.noConfusion h
      | some row =>
        simp only [hr, Option.some.injEq] at h
        exact ⟨a, mu, row, rfl, hm, hr, h.symm⟩

theorem gstep_struct {P : GParams} {st st2 : GState}
    (hS : StructInv st) (h : gstep P st = some st2) : StructInv st2 := by
  obtain ⟨a, mu, row, -, -, -, rfl⟩ := gstep_some h
  obtain ⟨h1, h2, -⟩ := hS
  refine ⟨?_, ?_, ?_⟩
  · simp [h1]
  · simp [h2]
  · exact List.getLast?_concat _

theorem grun_struct {P : GParams} : ∀ (fuel : ℕ) (st final : GState),
    StructInv st → grun P fuel st = some final → StructInv final := by
  intro fuel
  induction fuel with
  | zero =>
    intro st final hS h
    obtain rfl : st = final := by simpa [grun] using h
    exact hS
  | succ fuel ih =>
    intro st final hS h
    rw [grun] at h
    by_cases hc : st.current_time < (P.tmax : EReal) ∧ st.n_counter < P.n_max - 1
    · rw [if_pos hc] at h
      cases hstep : gstep P st with
      | none => rw [hstep] at h; exact Option.noConfusion h
      | some st2 =>
        rw [hstep] at h
        exact ih st2 final (gstep_struct hS hstep) h
    · rw [if_neg hc] at h
      obtain rfl : st = final := by simpa using h
      exact hS

/-- Any value in a `zipWith` comes from a common index of the two lists. -/
theorem exists_of_mem_zipWith {α β γ : Type} {f : α → β → γ} {l1 : List α}
    {l2 : List β} {v : γ} (h : v ∈ List.zipWith f l1 l2) :
    ∃ (i : ℕ) (h1 : i < l1.length) (h2 : i < l2.length),
      v = f (l1.get ⟨i, h1⟩) (l2.get ⟨i, h2⟩) := by
  obtain ⟨i, hi, hv⟩ := List.getElem_of_mem h
  have hlen := List.length_zipWith f l1 l2
  have h1 : i < l1.length := by rw [hlen] at hi; omega
  have h2 : i < l2.length := by rw [hlen] at hi; omega
  refine ⟨i, h1, h2, ?_⟩
  rw [← hv, List.getElem_zipWith]
  simp [List.get_eq_getElem]

/-- A successful selection at positive total propensity picks a reaction
with strictly positive propensity (a zero-propensity reaction can never be
the least index whose cumulative sum reaches `r2 · a0 > 0`). -/
theorem next_mu_sel {a : List ℚ} {r2 : ℚ} {mu : ℕ}
    (hpos : 0 < a.sum) (hr0 : 0 < r2)
    (h : next_mu a.sum a r2 = some mu) :
    ∃ hlt : mu < a.length, 0 < a.get ⟨mu, hlt⟩ := by
  cases a with
  | nil => exact absurd h (by simp [next_mu])
  | cons h0 t =>
    rw [next_mu] at h
    obtain ⟨-, hlen, hge, hlt⟩ :=
      muLoop_sound t (r2 * (h0 :: t).sum - h0) 0 mu h
    simp only [Nat.sub_zero] at hlen hge hlt
    have hlt2 : mu < (h0 :: t).length := by
      simp only [List.length_cons]; omega
    refine ⟨hlt2, ?_⟩
    cases mu with
    | zero =>
      have hz : r2 * (h0 :: t).sum - h0 ≤ 0 := by simpa using hge
      have hprod : 0 < r2 * (h0 :: t).sum := mul_pos hr0 hpos
      show 0 < h0
      linarith
    | succ k =>
      have hk : k < t.length := by omega
      have h1 : r2 * (h0 :: t).sum - h0 ≤ (t.take (k + 1)).sum := hge
      have h2 : (t.take k).sum < r2 * (h0 :: t).sum - h0 := hlt k (by omega)
      rw [List.sum_take_succ t k hk] at h1
      show 0 < t.get ⟨k, hk⟩
      rw [List.get_eq_getElem]
      linarith

/-- One loop-body step preserves the non-negativity invariant: an absorbed
step (`a0 = 0`) drives the time to `⊤` (so only the final, dropped snapshot
may be negative), while a step at `a0 > 0` fires a reaction of strictly
positive propensity, whose substrates are all fully available. -/
theorem gstep_nonneg {P : GParams} {st st2 : GState}
    (hV : ValidParams P) (hS : StructInv st) (hN : NonnegInv st)
    (hT : st.current_time < (P.tmax : EReal)) (h : gstep P st = some st2) :
    NonnegInv st2 := by
  obtain ⟨hV1, hV2, hV3, hV4, hV5⟩ := hV
  obtain ⟨hN1, hN2, hN3⟩ := hN
  have hTne : st.current_time ≠ ⊤ := by
    intro he; rw [he] at hT; exact not_top_lt hT
  have hxs : ∀ v ∈ st.current_species, 0 ≤ v := hN2.resolve_left hTne
  have hstore : ∀ row ∈ st.store_number_molecules, ∀ v ∈ row, 0 ≤ v := by
    have hne : st.store_number_molecules ≠ [] := by
      intro hnil
      have h3 := hS.2.2
      rw [hnil] at h3
      simp at h3
    intro row hrow
    rw [← List.dropLast_append_getLast hne] at hrow
    rcases List.mem_append.mp hrow with h1 | h2
    · exact hN1 row h1
    · have heq : row = st.store_number_molecules.getLast hne := by simpa using h2
      have hlast : st.store_number_molecules.getLast hne = st.current_species := by
        have h3 := hS.2.2
        rw [List.getLast?_eq_getLast _ hne] at h3
        exact Option.some.inj h3
      rw [heq, hlast]
      exact hxs
  obtain ⟨a, mu, row, hprop, hmu, hrow, rfl⟩ := gstep_some h
  have hdt_ne_bot : npDt a.sum (P.r1 st.n_counter) ≠ ⊥ := by
    rw [npDt]
    split_ifs
    · exact top_ne_bot
    · exact EReal.coe_ne_bot _
  refine ⟨?_, ?_, ?_⟩
  · intro r hr
    rw [List.dropLast_concat] at hr
    exact hstore r hr
  · by_cases ha0 : a.sum = 0
    · left
      show st.current_time + npDt a.sum (P.r1 st.n_counter) = ⊤
      rw [npDt, if_pos ha0]
      exact EReal.add_top_of_ne_bot hN3
    · right
      have hann : ∀ v ∈ a, 0 ≤ v := by
        refine propList_nonneg _ _ _ ?_ hprop
        intro p hp
        obtain ⟨p1, p2⟩ := p
        exact hV1 p2 (List.of_mem_zip hp).2
      have hsum : 0 < a.sum :=
        lt_of_le_of_ne (List.sum_nonneg hann) (Ne.symm ha0)
      obtain ⟨hmul, hamu⟩ := next_mu_sel hsum (hV5 st.n_counter).1 hmu
      have hziplen : a.length = (P.sub_stoch.zip P.rates).length :=
        propList_length _ _ _ hprop
      have hmu_zip : mu < (P.sub_stoch.zip P.rates).length := by omega
      have hmu_sub : mu < P.sub_stoch.length := by
        have := List.length_zip P.sub_stoch P.rates
        omega
      have hmu_rates : mu < P.rates.length := by
        have := List.length_zip P.sub_stoch P.rates
        omega
      have hrp := propList_get _ _ _ hprop mu hmu_zip hmul
      have hzip_get : (P.sub_stoch.zip P.rates).get ⟨mu, hmu_zip⟩ =
          (P.sub_stoch.get ⟨mu, hmu_sub⟩, P.rates.get ⟨mu, hmu_rates⟩) := by
        rw [List.get_eq_getElem, List.getElem_zip]
        rw [List.get_eq_getElem, List.get_eq_getElem]
      rw [hzip_get] at hrp
      rw [reaction_propensity] at hrp
      cases hw : hiLoop ((P.sub_stoch.get ⟨mu, hmu_sub⟩).zip st.current_species) 1 with
      | none => rw [hw] at hrp; exact Option.noConfusion hrp
      | some w =>
        rw [hw] at hrp
        have hamu_eq : (w : ℚ) * P.rates.get ⟨mu, hmu_rates⟩ = a.get ⟨mu, hmul⟩ := by
          simpa using hrp
        have hwpos : 0 < w := by
          rcases Nat.eq_zero_or_pos w with rfl | hpos
          · rw [Nat.cast_zero, zero_mul] at hamu_eq
            rw [← hamu_eq] at hamu
            exact absurd hamu (lt_irrefl 0)
          · exact hpos
        have hfeas := hiLoop_pos_feasible _ _ _ hw hwpos
        obtain ⟨hmu_stoch, hget⟩ := List.get?_eq_some.mp hrow
        have hmu_sub2 : mu < P.sub_stoch.length := hmu_sub
        have hmu_prod : mu < P.prod_stoch.length := by
          have := List.length_zipWith (List.zipWith (· + ·)) P.sub_stoch P.prod_stoch
          rw [stoch_def] at hmu_stoch
          omega
        have hrow_eq : row = List.zipWith (· + ·) (P.sub_stoch.get ⟨mu, hmu_sub⟩)
            (P.prod_stoch.get ⟨mu, hmu_prod⟩) := by
          rw [← hget]
          simp only [stoch_def, List.get_eq_getElem]
          rw [List.getElem_zipWith]
        intro v hv
        obtain ⟨i, hi1, hi2, hveq⟩ := exists_of_mem_zipWith hv
        have hi2b : i < (List.zipWith (· + ·) (P.sub_stoch.get ⟨mu, hmu_sub⟩)
            (P.prod_stoch.get ⟨mu, hmu_prod⟩)).length := by
          rw [← hrow_eq]; exact hi2
        have hlen2 := List.length_zipWith (fun (a b : ℤ) => a + b)
          (P.sub_stoch.get ⟨mu, hmu_sub⟩) (P.prod_stoch.get ⟨mu, hmu_prod⟩)
        have hi_sub : i < (P.sub_stoch.get ⟨mu, hmu_sub⟩).length := by omega
        have hi_prod : i < (P.prod_stoch.get ⟨mu, hmu_prod⟩).length := by omega
        have hrow_i : row.get ⟨i, hi2⟩ =
            (P.sub_stoch.get ⟨mu, hmu_sub⟩).get ⟨i, hi_sub⟩ +
            (P.prod_stoch.get ⟨mu, hmu_prod⟩).get ⟨i, hi_prod⟩ := by
          simp only [List.get_eq_getElem]
          rw [List.getElem_of_eq hrow_eq, List.getElem_zipWith]
          simp [List.get_eq_getElem]
        have hsle : (P.sub_stoch.get ⟨mu, hmu_sub⟩).get ⟨i, hi_sub⟩ ≤ 0 :=
          hV2 _ (List.get_mem _ _ _) _ (List.get_mem _ _ _)
        have hple : 0 ≤ (P.prod_stoch.get ⟨mu, hmu_prod⟩).get ⟨i, hi_prod⟩ :=
          hV3 _ (List.get_mem _ _ _) _ (List.get_mem _ _ _)
        have hxle : 0 ≤ st.current_species.get ⟨i, hi1⟩ :=
          hxs _ (List.get_mem _ _ _)
        rw [hveq, hrow_i]
        by_cases hz : (P.sub_stoch.get ⟨mu, hmu_sub⟩).get ⟨i, hi_sub⟩ = 0
        · rw [hz]
          omega
        · have hzip_i : i < ((P.sub_stoch.get ⟨mu, hmu_sub⟩).zip
              st.current_species).length := by
            have := List.length_zip (P.sub_stoch.get ⟨mu, hmu_sub⟩)
              st.current_species
            omega
          have hpair : ((P.sub_stoch.get ⟨mu, hmu_sub⟩).get ⟨i, hi_sub⟩,
              st.current_species.get ⟨i, hi1⟩) ∈
              (P.sub_stoch.get ⟨mu, hmu_sub⟩).zip st.current_species := by
            have hz_get : ((P.sub_stoch.get ⟨mu, hmu_sub⟩).zip
                st.current_species).get ⟨i, hzip_i⟩ =
                ((P.sub_stoch.get ⟨mu, hmu_sub⟩).get ⟨i, hi_sub⟩,
                 st.current_species.get ⟨i, hi1⟩) := by
              simp [List.get_eq_getElem, List.getElem_zip]
            rw [← hz_get]
            exact List.get_mem _ _ _
          have := hfeas _ hpair hz
          omega
  · show st.current_time + npDt a.sum (P.r1 st.n_counter) ≠ ⊥
    intro hc
    rcases EReal.add_eq_bot_iff.mp hc with hb | hb
    · exact hN3 hb
    · exact hdt_ne_bot hb

/-- The whole loop preserves both invariants. -/
theorem grun_nonneg {P : GParams} (hV : ValidParams P) :
    ∀ (fuel : ℕ) (st final : GState), StructInv st → NonnegInv st →
    grun P fuel st = some final → NonnegInv final ∧ StructInv final := by
  intro fuel
  induction fuel with
  | zero =>
    intro st final hS hN h
    obtain rfl : st = final := by simpa [grun] using h
    exact ⟨hN, hS⟩
  | succ fuel ih =>
    intro st final hS hN h
    rw [grun] at h
    by_cases hc : st.current_time < (P.tmax : EReal) ∧ st.n_counter < P.n_max - 1
    · rw [if_pos hc] at h
      cases hstep : gstep P st with
      | none => rw [hstep] at h; exact Option.noConfusion h
      | some st2 =>
        rw [hstep] at h
        exact ih st2 final (gstep_struct hS hstep)
          (gstep_nonneg ⟨hV.1, hV.2.1, hV.2.2.1, hV.2.2.2.1, hV.2.2.2.2⟩
            hS hN hc.1 hstep) h
    · rw [if_neg hc] at h
      obtain rfl : st = final := by simpa using h
      exact ⟨hN, hS⟩

/-! ## Claim theorems -/

/-- **C1**: for every propensity list `a` with `M ≥ 1`, total
`a0 = sum a > 0` and draws `r1, r2 ∈ (0,1)`, `next_values(a0,a,r1,r2)`
returns the pair `(dt, mu)` with `dt = (1/a0)·ln(1/r1)` and `mu` the
smallest index whose partial sum `a[0]+...+a[mu]` reaches `r2·a0`.  The
embedding is a pure function of the four arguments, so determinism and
absence of mutation hold by construction. -/
theorem C1_next_values_spec (a : List ℚ) (a0 r2 : ℚ) (r1 : ℝ)
    (hlen : 1 ≤ a.length) (ha0 : a0 = a.sum) (hpos : 0 < a0)
    (_hr1a : 0 < r1) (_hr1b : r1 < 1) (_hr2a : 0 < r2) (hr2b : r2 < 1) :
    ∃ mu : ℕ,
      next_values a0 a r1 r2 =
        some ((1 / (a0 : ℝ)) * Real.log (1 / r1), mu) ∧
      r2 * a0 ≤ (a.take (mu + 1)).sum ∧
      ∀ k < mu, (a.take (k + 1)).sum < r2 * a0 := by
  subst ha0
  cases a with
  | nil => simp at hlen
  | cons h0 t =>
    have hlt1 : r2 * (h0 :: t).sum < (h0 :: t).sum := by
      have := mul_lt_mul_of_pos_right hr2b hpos
      rwa [one_mul] at this
    have hsum : r2 * (h0 :: t).sum - h0 ≤ t.sum := by
      rw [List.sum_cons] at hlt1 ⊢
      linarith
    obtain ⟨k, hk, hklen, hge, hltk⟩ :=
      muLoop_total t (r2 * (h0 :: t).sum - h0) 0 hsum
    refine ⟨k, ?_, ?_, ?_⟩
    · rw [next_values, next_mu, hk]
      simp [new_time_difference]
    · simp only [List.take_succ_cons, List.sum_cons] at hge ⊢
      linarith
    · intro j hj
      have h3 := hltk j hj
      simp only [List.take_succ_cons, List.sum_cons] at h3 ⊢
      linarith

/-- Witness for C1 at `a = [1/2, 1/2]`, `a0 = 1`, `r1 = 1/2`,
`r2 = 3/4` (the scan selects `mu = 1`). -/
theorem C1_next_values_spec_witness :
    ∃ mu : ℕ,
      next_values 1 [1/2, 1/2] ((1 : ℝ)/2) (3/4) =
        some ((1 / ((1 : ℚ) : ℝ)) * Real.log (1 / ((1 : ℝ)/2)), mu) ∧
      (3/4 : ℚ) * 1 ≤ (([1/2, 1/2] : List ℚ).take (mu + 1)).sum ∧
      ∀ k < mu, (([1/2, 1/2] : List ℚ).take (k + 1)).sum < (3/4 : ℚ) * 1 :=
  C1_next_values_spec [1/2, 1/2] 1 (3/4) ((1 : ℝ)/2) (by norm_num) (by norm_num)
    (by norm_num) (by norm_num) (by norm_num) (by norm_num) (by norm_num)

/-- **C3** fails as stated: with substrate row `[-2]` (the reaction needs
two molecules) and state `[1]` (one available, so `0 < x < k`), the
propensity computation raises `IndexError` inside `calculate_hi` instead
of producing the defined value `0`. -/
theorem C3_counterexample :
    reaction_propensity [-2] [1] 1 = none ∧
    reaction_propensity [-2] [1] 1 ≠ some 0 ∧
    calculate_hi 1 2 = none := by
  refine ⟨by decide, by decide, by decide⟩

/-- **C3 (amended)**: when no involved species is partially available
(each one either has count `≤ 0` or is fully sufficient — otherwise the
computation raises instead of returning), an insufficient species forces
the propensity to be exactly `0`. -/
theorem C3_amended_insufficiency (row x : List ℤ) (c : ℚ)
    (hnopart : ∀ p ∈ row.zip x, p.1 ≠ 0 → 0 < p.2 → (p.1.natAbs : ℤ) ≤ p.2)
    (hbad : ∃ p ∈ row.zip x, p.1 ≠ 0 ∧ p.2 < (p.1.natAbs : ℤ)) :
    reaction_propensity row x c = some 0 := by
  obtain ⟨p, hp, hp1, hp2⟩ := hbad
  have hple : p.2 ≤ 0 := by
    by_contra hc
    push_neg at hc
    have := hnopart p hp hp1 hc
    omega
  rw [reaction_propensity, hiLoop_insufficient _ 1 hnopart ⟨p, hp, hp1, hple⟩]
  simp

/-- Witness for the amended C3: reaction `X1 -> ...` with no molecule of
`X1` present has propensity exactly `0`. -/
theorem C3_amended_insufficiency_witness :
    reaction_propensity [-1] [0] 5 = some 0 :=
  C3_amended_insufficiency [-1] [0] 5 (by decide)
    ⟨(-1, 0), by decide, by decide, by decide⟩

/-- **C4** fails as stated: for a reaction consuming two copies of a
species (`k = 2`) in state `x = [2]` with rate 1, the code computes
`a_r = C(2,2)·2! = 2`, not the claimed `c_r · C(2,2) = 1`. -/
theorem C4_counterexample :
    reaction_propensity [-2] [2] 1 = some 2 ∧
    (2 : ℚ) ≠ (1 : ℚ) * ((Nat.choose 2 2 : ℕ) : ℚ) := by
  constructor
  · have h1 : hiLoop (([-2] : List ℤ).zip ([2] : List ℤ)) 1 = some 2 := by decide
    rw [reaction_propensity, h1]
    norm_num
  · norm_num

/-- **C4 (amended)**: for a fully feasible reaction the propensity is
`a_r = (∏ C(x[s],k_s)·k_s!) · c_r` — the number of ordered selections,
which carries an extra factor `k_s!` over the plain binomial of the claim;
a reaction with an empty substrate side (no nonzero coefficient) has
`h_r = ∏ over the empty set = 1` and `a_r = c_r`. -/
theorem C4_amended_feasible (row x : List ℤ) (c : ℚ)
    (hfeas : ∀ p ∈ row.zip x, p.1 ≠ 0 → (p.1.natAbs : ℤ) ≤ p.2) :
    reaction_propensity row x c = some ((hProd (row.zip x) : ℚ) * c) := by
  rw [reaction_propensity, hiLoop_feasible _ 1 hfeas]
  simp

/-- Witness for the amended C4: `2 X1 -> ...` at `x = [3]`, `c = 2` gives
`a_r = C(3,2)·2!·2 = 12`. -/
theorem C4_amended_feasible_witness :
    reaction_propensity [-2] [3] 2 =
      some ((hProd (([-2] : List ℤ).zip ([3] : List ℤ)) : ℚ) * 2) ∧
    ((hProd (([-2] : List ℤ).zip ([3] : List ℤ)) : ℚ) * 2 = 12) :=
  ⟨C4_amended_feasible [-2] [3] 2 (by decide), by
    have h1 : hProd (([-2] : List ℤ).zip ([3] : List ℤ)) = 6 := by decide
    rw [h1]
    norm_num⟩

/-- **C5**: for `n ≥ 1` and `0 ≤ m ≤ n`, `calculate_hi(n,m)` equals
`C(n,m)·m! = n!/(n-m)!`, computed from the Pascal-row table (exact
integers), not a floating factorial of `n`. -/
theorem C5_calculate_hi_spec (n m : ℕ) (_hn : 1 ≤ n) (hm : m ≤ n) :
    calculate_hi n m = some (Nat.choose n m * Nat.factorial m) ∧
    Nat.choose n m * Nat.factorial m =
      Nat.factorial n / Nat.factorial (n - m) := by
  refine ⟨calculate_hi_eq hm, ?_⟩
  have h2 : Nat.factorial n / Nat.factorial (n - m) =
      Nat.choose n m * Nat.factorial m :=
    Nat.div_eq_of_eq_mul_left (Nat.factorial_pos _)
      (Nat.choose_mul_factorial_mul_factorial hm).symm
  exact h2.symm

/-- Witness for C5, including the hand-checked value
`calculate_hi(5,2) = 10 · 2 = 20`. -/
theorem C5_calculate_hi_spec_witness :
    (calculate_hi 5 2 = some (Nat.choose 5 2 * Nat.factorial 2) ∧
      Nat.choose 5 2 * Nat.factorial 2 =
        Nat.factorial 5 / Nat.factorial (5 - 2)) ∧
    calculate_hi 5 2 = some 20 :=
  ⟨C5_calculate_hi_spec 5 2 (by norm_num) (by norm_num), by decide⟩

/-- **C6** fails as stated: the input `"Y3->X1"` contains the malformed
term `Y3`, yet the parser does not fail — it silently drops the term and
returns a zero substrate row. -/
theorem C6_counterexample :
    reactions_stoch ['Y', '3', '-', '>', 'X', '1'] = some ([[0]], [[1]]) := by
  decide

/-- **C6 (amended)**: the parser has no `MalformedReaction` failure mode.
A term that does not split at `'X'` into exactly two pieces is silently
dropped (contributes nothing); only a term with exactly one `'X'` followed
by a non-numeric piece raises, and then with a generic `ValueError` from
`int()`. -/
theorem C6_amended_no_reject :
    (∀ t : List Char, (strSplit t ['X']).length ≠ 2 → parse_term t = some none) ∧
    (∀ t s1 s2 : List Char, strSplit t ['X'] = [s1, s2] → pyInt s2 = none →
      parse_term t = none) :=
  ⟨fun _ h => parse_term_dropped h, fun _ _ _ h h2 => parse_term_valueError h h2⟩

/-- Witness for the amended C6: `Y3` is dropped, `2Xa` raises. -/
theorem C6_amended_no_reject_witness :
    parse_term ['Y', '3'] = some none ∧ parse_term ['2', 'X', 'a'] = none :=
  ⟨C6_amended_no_reject.1 ['Y', '3'] (by decide),
   C6_amended_no_reject.2 ['2', 'X', 'a'] ['2'] ['a'] (by decide) (by decide)⟩

/-- **C7** (code bug, evaluated at the failing input): on `"X1->0,0->X1"`
the second reaction's product `X1` is written into row 0 of the product
matrix, which comes out `[[1],[0]]` instead of the claimed `[[0],[1]]` —
a side with no surviving terms is omitted from the per-reaction fill list,
shifting every later reaction's row up by one. -/
theorem C7_eval_misplaced_row :
    reactions_stoch ['X', '1', '-', '>', '0', ',', '0', '-', '>', 'X', '1'] =
      some ([[-1], [0]], [[1], [0]]) ∧
    ([[1], [0]] : List (List ℤ)) ≠ [[0], [1]] := by
  refine ⟨by decide, by decide⟩

/-! ### Concrete runs of the simulation loop

Two tiny networks, used to witness the loop theorems and to evaluate the
code at the inputs on which claims fail.  In both, the draws are
`r1 = e⁻¹` (so every finite waiting time is exactly `1/a0`) and
`r2 = 1/2`.
-/

/-- Iteration lemma: one unfolding of the `while` loop when the condition
holds. -/
theorem grun_succ_pos {P : GParams} {fuel : ℕ} {st : GState}
    (hc : st.current_time < (P.tmax : EReal) ∧ st.n_counter < P.n_max - 1) :
    grun P (fuel + 1) st =
      match gstep P st with
      | none => none
      | some st2 => grun P fuel st2 := by
  rw [grun, if_pos hc]

/-- Iteration lemma: the loop exits when the condition fails. -/
theorem grun_succ_neg {P : GParams} {fuel : ℕ} {st : GState}
    (hc : ¬(st.current_time < (P.tmax : EReal) ∧ st.n_counter < P.n_max - 1)) :
    grun P (fuel + 1) st = some st := by
  rw [grun, if_neg hc]

/-- Run 1: the single reaction `X1 -> X2` (`sub = [[-1,0]]`,
`prod = [[0,1]]`), rate 1, horizon `tmax = 1/2`, `n_max = 5`. -/
noncomputable def P1 : GParams :=
  { rates := [1], sub_stoch := [[-1, 0]], prod_stoch := [[0, 1]],
    tmax := 1/2, n_max := 5,
    r1 := fun _ => Real.exp (-1), r2 := fun _ => 1/2 }

/-- The loop state after run 1: one reaction fired at time 1, then the
horizon check `1 < 1/2` fails. -/
noncomputable def run1_final : GState :=
  ⟨((1 : ℝ) : EReal), [0, 1], 1,
   [(0 : EReal), ((1 : ℝ) : EReal)], [[1, 0], [0, 1]]⟩

theorem zipP1 : (([-1, 0] : List ℤ).zip ([1, 0] : List ℤ)) = [(-1, 1), (0, 0)] := by
  decide

theorem hiLoopP1 : hiLoop [((-1 : ℤ), (1 : ℤ)), (0, 0)] 1 = some 1 := by decide

theorem propP1a : propensities [[-1, 0]] [1] [1, 0] = some [1] := by
  have h1 : reaction_propensity [-1, 0] [1, 0] 1 = some 1 := by
    rw [reaction_propensity, zipP1, hiLoopP1]
    norm_num
  simp [propensities, propList, h1]

theorem sum1 : ([(1 : ℚ)]).sum = 1 := by simp

theorem muP1a : next_mu 1 [1] (1/2) = some 0 := by
  rw [next_mu, muLoop, if_neg]
  norm_num

theorem dtP1 : npDt 1 (Real.exp (-1)) = ((1 : ℝ) : EReal) := by
  rw [npDt, if_neg (by norm_num : ¬(1 : ℚ) = 0), new_time_difference]
  have h1 : (1 / ((1 : ℚ) : ℝ)) * Real.log (1 / Real.exp (-1)) = 1 := by
    rw [Rat.cast_one]
    rw [show (1 : ℝ) / Real.exp (-1) = Real.exp 1 from by
      rw [Real.exp_neg, one_div, inv_inv]]
    rw [Real.log_exp]
    norm_num
  rw [h1]

theorem stochP1 : P1.stoch = [[-1, 1]] := by
  rw [stoch_def]
  rfl

theorem gstepP1a : gstep P1 (init_gstate [1, 0]) = some run1_final := by
  unfold gstep
  rw [show (init_gstate [1, 0]).current_species = [1, 0] from rfl,
    show P1.sub_stoch = [[-1, 0]] from rfl, show P1.rates = [1] from rfl,
    propP1a]
  dsimp only
  rw [sum1, show (init_gstate [1, 0]).n_counter = 0 from rfl,
    show P1.r2 0 = 1/2 from rfl, muP1a]
  dsimp only
  rw [stochP1, show P1.r1 0 = Real.exp (-1) from rfl, dtP1,
    show (init_gstate [1, 0]).current_time = (0 : EReal) from rfl]
  rw [show ((0 : EReal) + ((1 : ℝ) : EReal)) = ((1 : ℝ) : EReal) from zero_add _]
  rw [show (([[-1, 1]] : List (List ℤ)).get? 0) = some [-1, 1] from rfl]
  dsimp only
  rw [show (List.zipWith (· + ·) ([1, 0] : List ℤ) [-1, 1]) = [0, 1] from by decide]
  rfl

theorem run1_eval : grun P1 5 (init_gstate [1, 0]) = some run1_final := by
  have hc1 : (init_gstate [1, 0]).current_time < (P1.tmax : EReal) ∧
      (init_gstate [1, 0]).n_counter < P1.n_max - 1 := by
    constructor
    · show (0 : EReal) < ((1/2 : ℝ) : EReal)
      rw [← EReal.coe_zero, EReal.coe_lt_coe_iff]
      norm_num
    · show 0 < 5 - 1
      norm_num
  have hc2 : ¬(run1_final.current_time < (P1.tmax : EReal) ∧
      run1_final.n_counter < P1.n_max - 1) := by
    intro hc
    have h1 : ((1 : ℝ) : EReal) < ((1/2 : ℝ) : EReal) := hc.1
    rw [EReal.coe_lt_coe_iff] at h1
    norm_num at h1
  rw [show (5 : ℕ) = 4 + 1 from rfl, grun_succ_pos hc1, gstepP1a]
  show grun P1 4 run1_final = some run1_final
  rw [show (4 : ℕ) = 3 + 1 from rfl, grun_succ_neg hc2]

theorem run1_output :
    gillespie_algo P1 [1, 0] = some ([(0 : EReal)], [[1, 0]], [0, 1]) := by
  unfold gillespie_algo
  rw [show P1.n_max = 5 from rfl, run1_eval]
  rfl

/-- Run 2: the same reaction `X1 -> X2`, but horizon `tmax = 10`, so the
loop reaches the absorbed configuration `[0, 1]` (total propensity 0) and
takes one further step through it. -/
noncomputable def P2 : GParams :=
  { rates := [1], sub_stoch := [[-1, 0]], prod_stoch := [[0, 1]],
    tmax := 10, n_max := 5,
    r1 := fun _ => Real.exp (-1), r2 := fun _ => 1/2 }

/-- The loop state at the end of run 2: the absorbed iteration fired
reaction 0 anyway, leaving the (negative!) state `[-1, 2]` and time `⊤`. -/
noncomputable def run2_final : GState :=
  ⟨(⊤ : EReal), [-1, 2], 2,
   [(0 : EReal), ((1 : ℝ) : EReal), (⊤ : EReal)], [[1, 0], [0, 1], [-1, 2]]⟩

theorem propP2b : propensities [[-1, 0]] [1] [0, 1] = some [0] := by
  have hz : (([-1, 0] : List ℤ).zip ([0, 1] : List ℤ)) = [(-1, 0), (0, 1)] := by
    decide
  have hl : hiLoop [((-1 : ℤ), (0 : ℤ)), (0, 1)] 1 = some 0 := by decide
  have h1 : reaction_propensity [-1, 0] [0, 1] 1 = some 0 := by
    rw [reaction_propensity, hz, hl]
    norm_num
  simp [propensities, propList, h1]

theorem sum0 : ([(0 : ℚ)]).sum = 0 := by simp

theorem muP2b : next_mu 0 [0] (1/2) = some 0 := by
  rw [next_mu, muLoop, if_neg]
  norm_num

theorem dtP2b : npDt 0 (Real.exp (-1)) = (⊤ : EReal) := by
  rw [npDt, if_pos rfl]

theorem gstepP2a : gstep P2 (init_gstate [1, 0]) = some run1_final := by
  unfold gstep
  rw [show (init_gstate [1, 0]).current_species = [1, 0] from rfl,
    show P2.sub_stoch = [[-1, 0]] from rfl, show P2.rates = [1] from rfl,
    propP1a]
  dsimp only
  rw [sum1, show (init_gstate [1, 0]).n_counter = 0 from rfl,
    show P2.r2 0 = 1/2 from rfl, muP1a]
  dsimp only
  rw [show P2.stoch = [[-1, 1]] from by rw [stoch_def]; rfl,
    show P2.r1 0 = Real.exp (-1) from rfl, dtP1,
    show (init_gstate [1, 0]).current_time = (0 : EReal) from rfl]
  rw [show ((0 : EReal) + ((1 : ℝ) : EReal)) = ((1 : ℝ) : EReal) from zero_add _]
  rw [show (([[-1, 1]] : List (List ℤ)).get? 0) = some [-1, 1] from rfl]
  dsimp only
  rw [show (List.zipWith (· + ·) ([1, 0] : List ℤ) [-1, 1]) = [0, 1] from by decide]
  rfl

theorem gstepP2b : gstep P2 run1_final = some run2_final := by
  unfold gstep
  rw [show run1_final.current_species = [0, 1] from rfl,
    show P2.sub_stoch = [[-1, 0]] from rfl, show P2.rates = [1] from rfl,
    propP2b]
  dsimp only
  rw [sum0, show run1_final.n_counter = 1 from rfl,
    show P2.r2 1 = 1/2 from rfl, muP2b]
  dsimp only
  rw [show P2.stoch = [[-1, 1]] from by rw [stoch_def]; rfl,
    show P2.r1 1 = Real.exp (-1) from rfl, dtP2b,
    show run1_final.current_time = ((1 : ℝ) : EReal) from rfl]
  rw [show (((1 : ℝ) : EReal) + (⊤ : EReal)) = (⊤ : EReal) from
    EReal.add_top_of_ne_bot (EReal.coe_ne_bot 1)]
  rw [show (([[-1, 1]] : List (List ℤ)).get? 0) = some [-1, 1] from rfl]
  dsimp only
  rw [show (List.zipWith (· + ·) ([0, 1] : List ℤ) [-1, 1]) = [-1, 2] from by decide]
  rfl

theorem run2_eval : grun P2 5 (init_gstate [1, 0]) = some run2_final := by
  have hc1 : (init_gstate [1, 0]).current_time < (P2.tmax : EReal) ∧
      (init_gstate [1, 0]).n_counter < P2.n_max - 1 := by
    constructor
    · show (0 : EReal) < ((10 : ℝ) : EReal)
      rw [← EReal.coe_zero, EReal.coe_lt_coe_iff]
      norm_num
    · show 0 < 5 - 1
      norm_num
  have hc2 : run1_final.current_time < (P2.tmax : EReal) ∧
      run1_final.n_counter < P2.n_max - 1 := by
    constructor
    · show ((1 : ℝ) : EReal) < ((10 : ℝ) : EReal)
      rw [EReal.coe_lt_coe_iff]
      norm_num
    · show 1 < 5 - 1
      norm_num
  have hc3 : ¬(run2_final.current_time < (P2.tmax : EReal) ∧
      run2_final.n_counter < P2.n_max - 1) := by
    intro hc
    exact not_top_lt hc.1
  rw [show (5 : ℕ) = 4 + 1 from rfl, grun_succ_pos hc1, gstepP2a]
  show grun P2 4 run1_final = some run2_final
  rw [show (4 : ℕ) = 3 + 1 from rfl, grun_succ_pos hc2, gstepP2b]
  show grun P2 3 run2_final = some run2_final
  rw [show (3 : ℕ) = 2 + 1 from rfl, grun_succ_neg hc3]

/-- **C2** (code bug, evaluated at the failing input): in run 2 the second
iteration starts with propensities `[0]`, total `a0 = 0`, yet the loop
body executes in full — `next_values` is invoked and selects `mu = 0`, the
division `1/a0` yields numpy `inf` so the waiting time is `⊤`, and
reaction 0's stoichiometry is applied, driving the state to `[-1, 2]`.
The loop then stops only because `inf < tmax` is false, not through any
absorption check. -/
theorem C2_eval_absorption :
    grun P2 5 (init_gstate [1, 0]) = some run2_final ∧
    propensities [[-1, 0]] [1] [0, 1] = some [0] ∧
    ([(0 : ℚ)]).sum = 0 ∧
    run2_final.current_species = [-1, 2] ∧
    run2_final.current_time = ⊤ ∧
    run2_final.n_counter = 2 :=
  ⟨run2_eval, propP2b, sum0, rfl, rfl, rfl⟩

/-- **C8**: for every run of `gillespie_algo` with valid inputs
(non-negative rates and initial state, substrate rows non-positive,
product rows non-negative, one rate per reaction), all consumed draws in
`(0,1)` and no runtime fault (the run returns a value), every snapshot in
the returned `store_number_molecules` is componentwise `≥ 0`.  (An
absorbed step can drive the threaded state negative, but it also drives
the time to `⊤`, ending the loop, and the `[:n_counter]` truncation drops
exactly that last snapshot.) -/
theorem C8_returned_snapshots_nonneg (P : GParams) (init : List ℤ)
    (ts : List EReal) (ms : List (List ℤ)) (after : List ℤ)
    (hV : ValidParams P) (hinit : ∀ v ∈ init, 0 ≤ v)
    (_hr1 : ∀ i, 0 < P.r1 i ∧ P.r1 i < 1)
    (hrun : gillespie_algo P init = some (ts, ms, after)) :
    ∀ row ∈ ms, ∀ v ∈ row, 0 ≤ v := by
  unfold gillespie_algo at hrun
  cases hgr : grun P P.n_max (init_gstate init) with
  | none => rw [hgr] at hrun; exact Option.noConfusion hrun
  | some final =>
    rw [hgr] at hrun
    have hms : ms = final.store_number_molecules.take final.n_counter := by
      have h2 : (ts, ms, after) =
          (final.store_time.take final.n_counter,
           final.store_number_molecules.take final.n_counter,
           final.current_species) := by
        simpa using hrun.symm
      exact congrArg (fun p => p.2.1) h2
    have hSinit : StructInv (init_gstate init) := by
      refine ⟨rfl, rfl, rfl⟩
    have hNinit : NonnegInv (init_gstate init) := by
      refine ⟨?_, Or.inr hinit, ?_⟩
      · intro r hr
        simp [init_gstate] at hr
      · show (0 : EReal) ≠ ⊥
        exact EReal.zero_ne_bot
    obtain ⟨hNf, hSf⟩ := grun_nonneg hV P.n_max _ _ hSinit hNinit hgr
    intro row hrow
    have hlen : final.store_number_molecules.length = final.n_counter + 1 :=
      hSf.1
    have htake : final.store_number_molecules.take final.n_counter =
        final.store_number_molecules.dropLast := by
      rw [List.dropLast_eq_take, hlen]
      simp
    rw [hms, htake] at hrow
    exact hNf.1 row hrow

/-- Witness for C8 at run 1: every entry of the returned snapshots
`[[1, 0]]` is non-negative. -/
theorem C8_returned_snapshots_nonneg_witness :
    (([[1, 0]] : List (List ℤ)).all fun r => r.all fun v => decide (0 ≤ v)) =
      true := by
  have hV : ValidParams P1 := by
    refine ⟨?_, ?_, ?_, rfl, ?_⟩
    · intro c hc
      simp only [show P1.rates = [1] from rfl] at hc
      simp at hc
      rw [hc]
      norm_num
    · intro r hr
      simp only [show P1.sub_stoch = [[-1, 0]] from rfl] at hr
      simp at hr
      rw [hr]
      decide
    · intro r hr
      simp only [show P1.prod_stoch = [[0, 1]] from rfl] at hr
      simp at hr
      rw [hr]
      decide
    · intro i
      constructor
      · show (0 : ℚ) < 1/2
        norm_num
      · show (1 : ℚ)/2 < 1
        norm_num
  have hr1 : ∀ i, 0 < P1.r1 i ∧ P1.r1 i < 1 := by
    intro i
    constructor
    · show (0 : ℝ) < Real.exp (-1)
      exact Real.exp_pos _
    · show Real.exp (-1) < 1
      rw [show (1 : ℝ) = Real.exp 0 from (Real.exp_zero).symm]
      exact Real.exp_lt_exp.mpr (by norm_num)
  have h := C8_returned_snapshots_nonneg P1 [1, 0] [(0 : EReal)] [[1, 0]]
    [0, 1] hV (by decide) hr1 run1_output
  rw [List.all_eq_true]
  intro r hr
  rw [List.all_eq_true]
  intro v hv
  simp only [decide_eq_true_eq]
  exact h r hr v hv

/-- **C9** fails as stated: in run 1 exactly one reaction fired
(`n_counter = 1`), but the returned arrays have length `1`, not `1 + 1`,
and their last entry is the initial state `[1, 0]`, not the state `[0, 1]`
reached after the final reaction — the truncation `[:n_counter]` drops the
final snapshot. -/
theorem C9_counterexample :
    gillespie_algo P1 [1, 0] = some ([(0 : EReal)], [[1, 0]], [0, 1]) ∧
    grun P1 P1.n_max (init_gstate [1, 0]) = some run1_final ∧
    run1_final.n_counter = 1 ∧
    ([[1, 0]] : List (List ℤ)).length = 1 ∧
    (1 : ℕ) ≠ 1 + 1 ∧
    ([[1, 0]] : List (List ℤ)).getLast? = some [1, 0] ∧
    run1_final.current_species = [0, 1] ∧
    ([1, 0] : List ℤ) ≠ [0, 1] :=
  ⟨run1_output, run1_eval, rfl, rfl, by norm_num, rfl, rfl, by decide⟩

/-- **C9 (amended)**: the returned trajectory is the internal store
truncated by one entry: it has length `k` (the number of fired reactions),
consisting of the initial snapshot and the states after reactions
`1..k-1`; the snapshot after the final reaction — which is the last entry
of the internal store — is dropped by the `[:n_counter]` truncation. -/
theorem C9_amended_truncated (P : GParams) (init : List ℤ)
    (ts : List EReal) (ms : List (List ℤ)) (after : List ℤ)
    (hrun : gillespie_algo P init = some (ts, ms, after)) :
    ∃ final : GState, grun P P.n_max (init_gstate init) = some final ∧
      ms = final.store_number_molecules.dropLast ∧
      ms.length = final.n_counter ∧
      ts = final.store_time.dropLast ∧
      ts.length = final.n_counter ∧
      final.store_number_molecules.getLast? = some final.current_species := by
  unfold gillespie_algo at hrun
  cases hgr : grun P P.n_max (init_gstate init) with
  | none => rw [hgr] at hrun; exact Option.noConfusion hrun
  | some final =>
    rw [hgr] at hrun
    have h2 : (ts, ms, after) =
        (final.store_time.take final.n_counter,
         final.store_number_molecules.take final.n_counter,
         final.current_species) := by
      simpa using hrun.symm
    have hts : ts = final.store_time.take final.n_counter :=
      congrArg Prod.fst h2
    have hms : ms = final.store_number_molecules.take final.n_counter :=
      congrArg (fun p => p.2.1) h2
    have hSinit : StructInv (init_gstate init) := ⟨rfl, rfl, rfl⟩
    have hSf := grun_struct P.n_max (init_gstate init) final hSinit hgr
    obtain ⟨hlen, hlent, hlast⟩ := hSf
    have htake : final.store_number_molecules.take final.n_counter =
        final.store_number_molecules.dropLast := by
      rw [List.dropLast_eq_take, hlen]
      simp
    have htaket : final.store_time.take final.n_counter =
        final.store_time.dropLast := by
      rw [List.dropLast_eq_take, hlent]
      simp
    refine ⟨final, rfl, ?_, ?_, ?_, ?_, hlast⟩
    · rw [hms, htake]
    · rw [hms, htake, List.length_dropLast, hlen]
      omega
    · rw [hts, htaket]
    · rw [hts, htaket, List.length_dropLast, hlent]
      omega

/-- Witness for the amended C9 at run 1. -/
theorem C9_amended_truncated_witness :
    ∃ final : GState, grun P1 P1.n_max (init_gstate [1, 0]) = some final ∧
      ([[1, 0]] : List (List ℤ)) = final.store_number_molecules.dropLast ∧
      ([[1, 0]] : List (List ℤ)).length = final.n_counter ∧
      ([(0 : EReal)]) = final.store_time.dropLast ∧
      ([(0 : EReal)]).length = final.n_counter ∧
      final.store_number_molecules.getLast? = some final.current_species :=
  C9_amended_truncated P1 [1, 0] [(0 : EReal)] [[1, 0]] [0, 1] run1_output

/-- **C10**: `gillespie_algo` binds `current_species = init` without
copying and updates it with in-place `+=` (source lines 174 and 226), so
the caller's `init` array is the threaded state vector: after the call it
holds the run's final state — equal to the last internal snapshot,
including the final update, which the returned trajectory drops (the
internal store is exactly the returned snapshots followed by that final
vector).  A second run reusing the same array would therefore start from
this final state; the module-level driver (line 305) guards against this
by passing `deepcopy(init1)` to every run. -/
theorem C10_alias_final_state (P : GParams) (init : List ℤ)
    (ts : List EReal) (ms : List (List ℤ)) (after : List ℤ)
    (hrun : gillespie_algo P init = some (ts, ms, after)) :
    ∃ final : GState, grun P P.n_max (init_gstate init) = some final ∧
      after = final.current_species ∧
      final.store_number_molecules = ms ++ [after] := by
  unfold gillespie_algo at hrun
  cases hgr : grun P P.n_max (init_gstate init) with
  | none => rw [hgr] at hrun; exact Option.noConfusion hrun
  | some final =>
    rw [hgr] at hrun
    have h2 : (ts, ms, after) =
        (final.store_time.take final.n_counter,
         final.store_number_molecules.take final.n_counter,
         final.current_species) := by
      simpa using hrun.symm
    have hms : ms = final.store_number_molecules.take final.n_counter :=
      congrArg (fun p => p.2.1) h2
    have hafter : after = final.current_species :=
      congrArg (fun p => p.2.2) h2
    have hSinit : StructInv (init_gstate init) := ⟨rfl, rfl, rfl⟩
    have hSf := grun_struct P.n_max (init_gstate init) final hSinit hgr
    obtain ⟨hlen, -, hlast⟩ := hSf
    have hne : final.store_number_molecules ≠ [] := by
      intro hnil
      rw [hnil] at hlast
      simp at hlast
    have hgl : final.store_number_molecules.getLast hne =
        final.current_species := by
      have h3 := hlast
      rw [List.getLast?_eq_getLast _ hne] at h3
      exact Option.some.inj h3
    refine ⟨final, rfl, hafter, ?_⟩
    have hsplit := List.dropLast_append_getLast hne
    have htake : final.store_number_molecules.take final.n_counter =
        final.store_number_molecules.dropLast := by
      rw [List.dropLast_eq_take, hlen]
      simp
    rw [hms, htake, hafter, ← hgl, hsplit]

/-- Witness for C10 at run 1: the caller's array ends as `[0, 1]`, the
snapshot the returned trajectory `[[1, 0]]` does not contain. -/
theorem C10_alias_final_state_witness :
    ∃ final : GState, grun P1 P1.n_max (init_gstate [1, 0]) = some final ∧
      ([0, 1] : List ℤ) = final.current_species ∧
      final.store_number_molecules = [[1, 0]] ++ [[0, 1]] :=
  C10_alias_final_state P1 [1, 0] [(0 : EReal)] [[1, 0]] [0, 1] run1_output

end AmparSim
